import Mathlib

/-!
Verification of the KrispyLedger expense-splitting bot (`src/main.py`).

The ledger document is the per-chat dictionary
`{users: dict, expenses: list, next_expense_id: int}`.  Users are the keys
of the `users` dictionary, kept in insertion order and unique, so they are
modelled as a `List String` (theorems that need key-uniqueness carry a
`Nodup` hypothesis).  Expense amounts are Python floats entered as decimal
literals; they are modelled as exact rationals, and `round(·, 2)` is
modelled as exact rounding to cents (half-up on rationals; the binary
floating tie-breaking of CPython is outside the model and no statement
below depends on a tie).
-/

namespace KrispyLedger

/-- An entry of the `expenses` list.  The `type` key may be absent in
legacy documents (the code reads it with `get("type", "group_split")`),
and the `payee` key is only written for `single_split` expenses, so both
are `Option`s. -/
structure Expense where
  id : Nat
  payer : String
  amount : ℚ
  description : String
  etype : Option String
  payee : Option String
deriving DecidableEq

/-- The per-chat ledger document. -/
structure Ledger where
  users : List String
  expenses : List Expense
  next_expense_id : Nat
deriving DecidableEq

/-- `expense.get("type", "group_split")` (line 164). -/
def expenseType (e : Expense) : String := e.etype.getD "group_split"

/-- The document a fresh chat starts from. -/
def freshLedger : Ledger := { users := [], expenses := [], next_expense_id := 1 }

/-- Model of Python `str.strip()` on its ASCII whitespace fragment. -/
def trimChars (l : List Char) : List Char :=
  ((l.dropWhile Char.isWhitespace).reverse.dropWhile Char.isWhitespace).reverse

/-- `text.strip()`. -/
def pyStrip (s : String) : String := String.mk (trimChars s.toList)

/-! ## calculate_balances (lines 156-194)

The balances dictionary has exactly the current users as keys and is
modelled as a total function read only at user names.  One expense updates
it as the Python loop body does; the `expense["payee"]` lookup of the
`single_split` branch raises `KeyError` when the key is absent, modelled
by `none`. -/

/-- One iteration of the expense loop of `calculate_balances`. -/
def applyExpense (users : List String) (bal : String → ℚ) (e : Expense) :
    Option (String → ℚ) :=
  if e.payer ∈ users then
    if expenseType e = "group_split" then
      if users.length = 0 then some bal
      else
        let share := e.amount / (users.length : ℚ)
        let b1 : String → ℚ := fun u => if u = e.payer then bal u + e.amount else bal u
        some (fun u => if u ∈ users then b1 u - share else b1 u)
    else if expenseType e = "single_split" then
      match e.payee with
      | none => none
      | some payee =>
        if payee ∈ users then
          let b1 : String → ℚ := fun u => if u = e.payer then bal u + e.amount else bal u
          let b2 : String → ℚ := fun u => if u = e.payer then b1 u - e.amount / 2 else b1 u
          some (fun u => if u = payee then b2 u - e.amount / 2 else b2 u)
        else some bal
    else some bal
  else some bal

/-- `calculate_balances`: start every user at `0.0` and fold the expense
list; `none` models the `KeyError` of a payee-less `single_split` entry. -/
def calculate_balances (d : Ledger) : Option (String → ℚ) :=
  d.expenses.foldlM (applyExpense d.users) (fun _ => 0)

/-! ## simplify_settlements (lines 218-247)

`round(balance, 2)` on exact rationals, the dict comprehensions of lines
220-223, and the two-pointer sweep of lines 230-245.  The sweep is written
as structural recursion: `feedOne` keeps matching one debtor against the
creditor list until the debtor's remainder falls below `0.01` (exactly the
iterations of the Python `while` loop in which `i` stays fixed), and
`settleLoop` then moves to the next debtor.  A suggestion
`(from, to, amount)` abstracts the rendered string
`"{from} pays {to} ${amount}"`. -/

/-- `round(q, 2)` as exact rounding to cents. -/
def round2 (q : ℚ) : ℚ := (round (100 * q) : ℚ) / 100

/-- Line 220: keep users whose (unrounded) magnitude is at least `0.01`,
storing the rounded balance.  Note the comprehension's filter tests the
raw `balance`, not the rounded one. -/
def rounded_balances (balances : List (String × ℚ)) : List (String × ℚ) :=
  (balances.filter fun p => 1/100 ≤ |p.2|).map fun p => (p.1, round2 p.2)

/-- Line 222: debtors, stored as positive owed amounts. -/
def debtorsOf (balances : List (String × ℚ)) : List (String × ℚ) :=
  ((rounded_balances balances).filter fun p => p.2 < 0).map fun p => (p.1, -p.2)

/-- Line 223: creditors. -/
def creditorsOf (balances : List (String × ℚ)) : List (String × ℚ) :=
  (rounded_balances balances).filter fun p => 0 < p.2

/-- The iterations of the `while` loop during which debtor `dn` (current
remainder `da`) stays current: settle `min` against successive creditors,
emit a suggestion only when the settled amount exceeds `0.01`, and return
the suggestions together with the remaining creditor list. -/
def feedOne (dn : String) (da : ℚ) :
    List (String × ℚ) → List (String × String × ℚ) × List (String × ℚ)
  | [] => ([], [])
  | (cn, ca) :: cs =>
    let amt := min da ca
    let sugg : List (String × String × ℚ) := if 1/100 < amt then [(dn, cn, amt)] else []
    if da ≤ ca then
      (sugg, if ca - amt < 1/100 then cs else (cn, ca - amt) :: cs)
    else
      if da - amt < 1/100 then (sugg, cs)
      else
        let r := feedOne dn (da - amt) cs
        (sugg ++ r.1, r.2)

/-- The full two-pointer sweep over the debtor list. -/
def settleLoop :
    List (String × ℚ) → List (String × ℚ) → List (String × String × ℚ)
  | [], _ => []
  | _ :: _, [] => []
  | (dn, da) :: ds, c :: cs =>
    let r := feedOne dn da (c :: cs)
    r.1 ++ settleLoop ds r.2

/-- `simplify_settlements`. -/
def simplify_settlements (balances : List (String × ℚ)) :
    List (String × String × ℚ) :=
  settleLoop (debtorsOf balances) (creditorsOf balances)

/-- The users that take part in the debtor/creditor matching. -/
def settleParticipants (balances : List (String × ℚ)) : List String :=
  (debtorsOf balances).map Prod.fst ++ (creditorsOf balances).map Prod.fst

/-- Same sweep but recording every settlement event, also the ones below
the emission threshold (used to state when the emitted suggestions settle
the ledger). -/
def feedOneAll (dn : String) (da : ℚ) :
    List (String × ℚ) → List (String × String × ℚ) × List (String × ℚ)
  | [] => ([], [])
  | (cn, ca) :: cs =>
    let amt := min da ca
    if da ≤ ca then
      ([(dn, cn, amt)], if ca - amt < 1/100 then cs else (cn, ca - amt) :: cs)
    else
      if da - amt < 1/100 then ([(dn, cn, amt)], cs)
      else
        let r := feedOneAll dn (da - amt) cs
        ((dn, cn, amt) :: r.1, r.2)

/-- All settlement events of the sweep. -/
def settleLoopAll :
    List (String × ℚ) → List (String × ℚ) → List (String × String × ℚ)
  | [], _ => []
  | _ :: _, [] => []
  | (dn, da) :: ds, c :: cs =>
    let r := feedOneAll dn da (c :: cs)
    r.1 ++ settleLoopAll ds r.2

/-- Total amount the suggestions tell `u` to pay. -/
def paidSum (u : String) (l : List (String × String × ℚ)) : ℚ :=
  ((l.filter fun s => s.1 = u).map fun s => s.2.2).sum

/-- Total amount the suggestions tell others to pay to `u`. -/
def recvSum (u : String) (l : List (String × String × ℚ)) : ℚ :=
  ((l.filter fun s => s.2.1 = u).map fun s => s.2.2).sum

/-- Total amount carried by a name in a debtor/creditor list. -/
def amtOf (u : String) (l : List (String × ℚ)) : ℚ :=
  ((l.filter fun p => p.1 = u).map fun p => p.2).sum

/-! ## The expense dialog (lines 326-544)

The conversation states of line 36.  `Idle` stands for
`ConversationHandler.END`; `ChoosingSplitKind` is the constant named
`CHOOSING_PAYEE` in the source. -/

inductive DialogState where
  | Idle
  | ChoosingPayer
  | ChoosingSplitKind
  | TypingAmount
  | TypingDescription
deriving DecidableEq

/-- `context.user_data["expense_data"]`: the partially entered expense. -/
structure ExpenseBuffer where
  payer : Option String
  etype : Option String
  payee : Option String
  amount : Option ℚ
deriving DecidableEq

def ExpenseBuffer.empty : ExpenseBuffer := ⟨none, none, none, none⟩

/-- Model of Python `data.split("_")` on the character list. -/
def splitChars (sep : Char) : List Char → List (List Char)
  | [] => [[]]
  | c :: cs =>
    if c = sep then [] :: splitChars sep cs
    else
      match splitChars sep cs with
      | [] => [[c]]
      | g :: gs => (c :: g) :: gs

/-- Line 427: `data.split("_")[1]` for a `payer_…` callback. -/
def payerFromData (data : String) : String :=
  String.mk (((splitChars '_' data.toList).drop 1).headD [])

/-- Line 465: `data.split("_", 2)[2]` for a `split_single_…` callback:
everything after the second underscore. -/
def payeeFromData (data : String) : String :=
  String.mk (List.intercalate ['_'] ((splitChars '_' data.toList).drop 2))

/-- `button_handler` (lines 373-477), restricted to its effect on the
ledger, the expense buffer and the conversation state.  The branches
appear in source order; rendering is out of scope (the `split_group` /
`split_single` branch reads `expense_data["payer"]` only to format the
summary text).  The `payer_…` and `split_single_…` branches store the
name taken from the callback token and advance without checking it
against the current users. -/
def button_handler (d : Ledger) (buf : ExpenseBuffer) (data : String) :
    Ledger × ExpenseBuffer × DialogState :=
  if data = "add_expense" then
    if d.users = [] then (d, buf, .Idle)
    else (d, .empty, .ChoosingPayer)
  else if data = "view_summary" then (d, buf, .Idle)
  else if data = "view_expenses_log" then (d, buf, .Idle)
  else if data = "manage_users" then (d, buf, .Idle)
  else if data = "settle" then
    ({ users := [], expenses := [], next_expense_id := 1 }, buf, .Idle)
  else if data = "menu" then (d, buf, .Idle)
  else if "payer_".toList.isPrefixOf data.toList then
    (d, { buf with payer := some (payerFromData data) }, .ChoosingSplitKind)
  else if data = "split_group" then
    (d, { buf with etype := some "group_split" }, .TypingAmount)
  else if "split_single_".toList.isPrefixOf data.toList then
    (d, { buf with etype := some "single_split", payee := some (payeeFromData data) },
     .TypingAmount)
  else (d, buf, .Idle)

/-- `clear_ledger` (lines 310-325): the `/clear` command. -/
def clear_ledger (_d : Ledger) : Ledger :=
  { users := [], expenses := [], next_expense_id := 1 }

/-! ### Parsing the amount

`float(text)` restricted to finite decimal literals (optional sign,
digits with an optional point, optional exponent).  The special forms
`inf`/`nan` and underscore digit separators accepted by CPython have no
rational counterpart and are outside the model. -/

def digitsVal (l : List Char) : ℕ :=
  l.foldl (fun n c => 10 * n + (c.toNat - 48)) 0

def parseUnsignedInt (l : List Char) : Option ℤ :=
  if l ≠ [] ∧ l.all Char.isDigit then some (digitsVal l : ℤ) else none

def parseSignedInt (l : List Char) : Option ℤ :=
  match l with
  | '+' :: r => parseUnsignedInt r
  | '-' :: r => (parseUnsignedInt r).map (fun n => -n)
  | r => parseUnsignedInt r

/-- Digits with an optional decimal point; returns the value and the rest. -/
def parseMantissa (l : List Char) : Option (ℚ × List Char) :=
  let ip := l.takeWhile Char.isDigit
  let r1 := l.dropWhile Char.isDigit
  match r1 with
  | '.' :: r2 =>
    let fp := r2.takeWhile Char.isDigit
    let r3 := r2.dropWhile Char.isDigit
    if ip = [] ∧ fp = [] then none
    else some ((digitsVal ip : ℚ) + (digitsVal fp : ℚ) / (10 ^ fp.length : ℚ), r3)
  | _ => if ip = [] then none else some ((digitsVal ip : ℚ), r1)

def parseFloatChars (l : List Char) : Option ℚ :=
  let sr : ℚ × List Char :=
    match l with
    | '+' :: r => (1, r)
    | '-' :: r => (-1, r)
    | r => (1, r)
  match parseMantissa sr.2 with
  | none => none
  | some (m, rest) =>
    match rest with
    | [] => some (sr.1 * m)
    | 'e' :: r => (parseSignedInt r).map fun k => sr.1 * m * (10 : ℚ) ^ k
    | 'E' :: r => (parseSignedInt r).map fun k => sr.1 * m * (10 : ℚ) ^ k
    | _ => none

/-- `float(s)` (for decimal literals; `float` itself strips whitespace). -/
def parseFloat (s : String) : Option ℚ := parseFloatChars (trimChars s.toList)

/-- `amount_handler` (lines 482-494): `float(update.message.text.strip())`,
reject a parse failure or a non-positive value and stay in
`TYPING_AMOUNT`; otherwise store the amount and move to `TYPING_DESC`. -/
def amount_handler (buf : ExpenseBuffer) (text : String) :
    ExpenseBuffer × DialogState :=
  match parseFloat (pyStrip text) with
  | none => (buf, .TypingAmount)
  | some a =>
    if a ≤ 0 then (buf, .TypingAmount)
    else ({ buf with amount := some a }, .TypingDescription)

/-- `desc_handler` (lines 496-544): an empty description re-prompts;
otherwise the buffered expense is appended with `id = next_expense_id`,
the counter is incremented, and the buffer is discarded (`none`).  The
catch-all branch models the `KeyError` states that the conversation flow
never reaches (the source would raise there). -/
def desc_handler (d : Ledger) (buf : ExpenseBuffer) (text : String) :
    Ledger × Option ExpenseBuffer × DialogState :=
  let description := pyStrip text
  if description = "" then (d, some buf, .TypingDescription)
  else
    match buf.payer, buf.amount, buf.etype with
    | some payer, some amount, some ty =>
      let e : Expense :=
        { id := d.next_expense_id, payer := payer, amount := amount,
          description := description, etype := some ty,
          payee := if ty = "single_split" then buf.payee else none }
      ({ d with expenses := d.expenses ++ [e],
                next_expense_id := d.next_expense_id + 1 }, none, .Idle)
    | _, _, _ => (d, some buf, .Idle)

/-! ## User management (lines 559-635) -/

inductive AddUserResult where
  | EmptyName
  | DuplicateUser
  | Added
deriving DecidableEq

/-- `add_user_name` (lines 559-580): strip, reject empty, reject a name
already a key of `users` (case-sensitive), else append. -/
def add_user_name (d : Ledger) (text : String) : Ledger × AddUserResult :=
  let name := pyStrip text
  if name = "" then (d, .EmptyName)
  else if name ∈ d.users then (d, .DuplicateUser)
  else ({ d with users := d.users ++ [name] }, .Added)

inductive RemoveUserResult where
  | UnknownUser
  | Removed (count : Nat)
deriving DecidableEq

/-- `remove_user_name` (lines 605-635): strip, reject an unknown name,
else drop the user and every expense whose `payer` is the name or whose
(optional) `payee` is the name, reporting how many were dropped. -/
def remove_user_name (d : Ledger) (text : String) : Ledger × RemoveUserResult :=
  let name := pyStrip text
  if name ∈ d.users then
    let kept := d.expenses.filter fun e => e.payer ≠ name ∧ e.payee ≠ some name
    ({ users := d.users.filter fun u => u ≠ name,
       expenses := kept,
       next_expense_id := d.next_expense_id },
     .Removed (d.expenses.length - kept.length))
  else (d, .UnknownUser)

/-! ## Helper lemmas -/

theorem sum_map_add {α : Type} (l : List α) (f g : α → ℚ) :
    (l.map fun x => f x + g x).sum = (l.map f).sum + (l.map g).sum := by
  induction l with
  | nil => simp
  | cons a t ih => simp only [List.map_cons, List.sum_cons, ih]; ring

theorem sum_map_const_q {α : Type} (l : List α) (c : ℚ) :
    (l.map fun _ => c).sum = l.length * c := by
  induction l with
  | nil => simp
  | cons a t ih => simp only [List.map_cons, List.sum_cons, ih, List.length_cons]; push_cast; ring

theorem sum_map_ite_zero (l : List String) (a : String) (ha : a ∉ l) (c : ℚ) :
    (l.map fun x => if x = a then c else 0).sum = 0 := by
  apply List.sum_eq_zero
  intro x hx
  obtain ⟨y, hy, rfl⟩ := List.mem_map.mp hx
  have : y ≠ a := fun h => ha (h ▸ hy)
  simp [this]

theorem sum_map_ite_single (l : List String) (hnd : l.Nodup) (a : String) (ha : a ∈ l) (c : ℚ) :
    (l.map fun x => if x = a then c else 0).sum = c := by
  induction l with
  | nil => cases ha
  | cons b t ih =>
    rw [List.nodup_cons] at hnd
    rw [List.map_cons, List.sum_cons]
    rcases List.mem_cons.mp ha with h | h
    · subst h
      have h1 : (if a = a then c else 0) = c := if_pos rfl
      rw [h1, sum_map_ite_zero t a hnd.1 c, add_zero]
    · have hb : b ≠ a := fun hba => hnd.1 (hba ▸ h)
      rw [if_neg hb, ih hnd.2 h, zero_add]

/-! ## Conservation of money over `calculate_balances` -/

/-- Every successfully processed expense leaves the total of the users'
balances unchanged (a group expense credits `amount` and debits
`users.length` shares of `amount / users.length`; a pair expense credits
`amount` and debits two halves). -/
theorem applyExpense_sum (users : List String) (hnd : users.Nodup)
    (bal bal2 : String → ℚ) (e : Expense)
    (h : applyExpense users bal e = some bal2) :
    (users.map bal2).sum = (users.map bal).sum := by
  unfold applyExpense at h
  by_cases hmem : e.payer ∈ users
  · rw [if_pos hmem] at h
    by_cases hg : expenseType e = "group_split"
    · rw [if_pos hg] at h
      by_cases h0 : users.length = 0
      · rw [if_pos h0] at h
        injection h with h; subst h; rfl
      · rw [if_neg h0] at h
        injection h with h; subst h
        have hN : ((users.length : ℚ)) ≠ 0 := Nat.cast_ne_zero.mpr h0
        have hcong : users.map (fun u =>
            if u ∈ users then
              (if u = e.payer then bal u + e.amount else bal u) - e.amount / (users.length : ℚ)
            else if u = e.payer then bal u + e.amount else bal u)
            = users.map (fun u =>
              bal u + ((if u = e.payer then e.amount else 0) + -(e.amount / (users.length : ℚ)))) := by
          apply List.map_congr_left
          intro u hu
          by_cases hup : u = e.payer <;> simp [hu, hup, hmem] <;> ring
        rw [hcong, sum_map_add, sum_map_add, sum_map_ite_single users hnd e.payer hmem,
          sum_map_const_q]
        field_simp
        ring
    · rw [if_neg hg] at h
      by_cases hs : expenseType e = "single_split"
      · rw [if_pos hs] at h
        cases hpe : e.payee with
        | none => rw [hpe] at h; cases h
        | some payee =>
          rw [hpe] at h
          dsimp only at h
          by_cases hq : payee ∈ users
          · rw [if_pos hq] at h
            injection h with h; subst h
            have hcong : users.map (fun u =>
                if u = payee then
                  (if u = e.payer then
                    (if u = e.payer then bal u + e.amount else bal u) - e.amount / 2
                  else if u = e.payer then bal u + e.amount else bal u) - e.amount / 2
                else
                  if u = e.payer then
                    (if u = e.payer then bal u + e.amount else bal u) - e.amount / 2
                  else if u = e.payer then bal u + e.amount else bal u)
                = users.map (fun u =>
                  bal u + ((if u = e.payer then e.amount - e.amount / 2 else 0) +
                    (if u = payee then -(e.amount / 2) else 0))) := by
              apply List.map_congr_left
              intro u _
              by_cases hpq : e.payer = payee
              · subst hpq
                by_cases hup : u = e.payer <;> simp [hup] <;> ring
              · by_cases hup : u = e.payer
                · by_cases huq : u = payee
                  · exact absurd (hup.symm.trans huq) hpq
                  · simp [hup, huq, hpq]; ring
                · by_cases huq : u = payee
                  · simp [hup, huq, Ne.symm hpq]; ring
                  · simp [hup, huq]
            rw [hcong, sum_map_add, sum_map_add, sum_map_ite_single users hnd e.payer hmem,
              sum_map_ite_single users hnd payee hq]
            ring
          · rw [if_neg hq] at h
            injection h with h; subst h; rfl
      · rw [if_neg hs] at h
        injection h with h; subst h; rfl
  · rw [if_neg hmem] at h
    injection h with h; subst h; rfl

/-- `applyExpense` only fails on a `single_split` expense with no payee
field. -/
theorem applyExpense_total (users : List String) (bal : String → ℚ) (e : Expense)
    (hshape : expenseType e = "single_split" → e.payee ≠ none) :
    ∃ bal2, applyExpense users bal e = some bal2 := by
  unfold applyExpense
  by_cases hmem : e.payer ∈ users
  · rw [if_pos hmem]
    by_cases hg : expenseType e = "group_split"
    · rw [if_pos hg]
      by_cases h0 : users.length = 0
      · rw [if_pos h0]; exact ⟨_, rfl⟩
      · rw [if_neg h0]; exact ⟨_, rfl⟩
    · rw [if_neg hg]
      by_cases hs : expenseType e = "single_split"
      · rw [if_pos hs]
        cases hpe : e.payee with
        | none => exact absurd hpe (hshape hs)
        | some payee =>
          dsimp only
          by_cases hq : payee ∈ users
          · rw [if_pos hq]; exact ⟨_, rfl⟩
          · rw [if_neg hq]; exact ⟨_, rfl⟩
      · rw [if_neg hs]; exact ⟨_, rfl⟩
  · rw [if_neg hmem]; exact ⟨_, rfl⟩

theorem foldl_balances_sum (users : List String) (hnd : users.Nodup) :
    ∀ (es : List Expense) (bal bal2 : String → ℚ),
      es.foldlM (applyExpense users) bal = some bal2 →
      (users.map bal2).sum = (users.map bal).sum := by
  intro es
  induction es with
  | nil =>
    intro bal bal2 h
    simp only [List.foldlM_nil] at h
    injection h with h; subst h; rfl
  | cons e t ih =>
    intro bal bal2 h
    simp only [List.foldlM_cons] at h
    obtain ⟨mid, h1, h2⟩ := Option.bind_eq_some.mp h
    rw [ih mid bal2 h2, applyExpense_sum users hnd bal mid e h1]

theorem foldl_balances_total (users : List String) :
    ∀ (es : List Expense) (bal : String → ℚ),
      (∀ e ∈ es, expenseType e = "single_split" → e.payee ≠ none) →
      ∃ bal2, es.foldlM (applyExpense users) bal = some bal2 := by
  intro es
  induction es with
  | nil => intro bal _; exact ⟨bal, rfl⟩
  | cons e t ih =>
    intro bal hshape
    obtain ⟨mid, hmid⟩ := applyExpense_total users bal e (hshape e (List.mem_cons_self e t))
    obtain ⟨bal2, h2⟩ := ih mid (fun x hx => hshape x (List.mem_cons_of_mem e hx))
    exact ⟨bal2, by simp only [List.foldlM_cons, hmid, Option.bind_eq_bind, Option.some_bind, h2]⟩

/-! ## Claim C4 -/

/-- C4: for every ledger document with a `Nodup`, non-empty user list all
of whose expenses are group-split, `calculate_balances` succeeds and the
balances of the users sum to exactly 0 (conservation of money, exact
arithmetic). -/
theorem C4_group_conservation (d : Ledger) (hnd : d.users.Nodup) (hne : d.users ≠ [])
    (hall : ∀ e ∈ d.expenses, expenseType e = "group_split") :
    ∃ bal, calculate_balances d = some bal ∧ (d.users.map bal).sum = 0 := by
  have hshape : ∀ e ∈ d.expenses, expenseType e = "single_split" → e.payee ≠ none := by
    intro e he hs
    exact absurd ((hall e he).symm.trans hs) (by decide)
  obtain ⟨bal, hbal⟩ := foldl_balances_total d.users d.expenses (fun _ => 0) hshape
  refine ⟨bal, hbal, ?_⟩
  rw [foldl_balances_sum d.users hnd d.expenses (fun _ => 0) bal hbal]
  simp [sum_map_const_q]

/-- C4 witness: the two-user, one-group-expense ledger of the spec's
lunch scenario. -/
theorem C4_group_conservation_witness :
    ∃ bal, calculate_balances
        ⟨["A", "B"], [⟨1, "A", 20, "Lunch", some "group_split", none⟩], 2⟩ = some bal ∧
      ((["A", "B"] : List String).map bal).sum = 0 :=
  C4_group_conservation ⟨["A", "B"], [⟨1, "A", 20, "Lunch", some "group_split", none⟩], 2⟩
    (by decide) (by decide) (by intro e he; simp at he; subst he; rfl)

/-! ## Claim C5 -/

/-- C5 counterexample: the claim is false as stated for a pair-split
expense whose payer equals its payee (both current users): the code's
`+amount`, `-amount/2`, `-amount/2` updates hit the same key, so the net
contribution to the payer is `0`, not `+amount/2`. -/
theorem C5_counterexample :
    (calculate_balances
        ⟨["A"], [⟨1, "A", 10, "x", some "single_split", some "A"⟩], 2⟩).map (fun b => b "A")
      = some 0 ∧ (0 : ℚ) ≠ 0 + 10 / 2 := by
  constructor
  · simp +decide [calculate_balances, applyExpense, expenseType, List.foldlM]
    norm_num
  · norm_num

/-- C5 (amended with `payee ≠ payer`): processing one pair-split expense
whose payer and payee are distinct current users adds exactly
`amount / 2` to the payer's balance, subtracts exactly `amount / 2` from
the payee's, and leaves every other balance unchanged. -/
theorem C5_pair_contribution (users : List String) (bal : String → ℚ)
    (e : Expense) (payee : String)
    (ht : expenseType e = "single_split") (hpe : e.payee = some payee)
    (hp : e.payer ∈ users) (hq : payee ∈ users) (hne : payee ≠ e.payer) :
    ∃ bal2, applyExpense users bal e = some bal2 ∧
      bal2 e.payer = bal e.payer + e.amount / 2 ∧
      bal2 payee = bal payee - e.amount / 2 ∧
      ∀ u, u ≠ e.payer → u ≠ payee → bal2 u = bal u := by
  have hg : ¬ expenseType e = "group_split" := by rw [ht]; decide
  unfold applyExpense
  rw [if_pos hp, if_neg hg, if_pos ht, hpe]
  dsimp only
  rw [if_pos hq]
  refine ⟨_, rfl, ?_, ?_, ?_⟩
  · have h1 : ¬ (e.payer = payee) := fun h => hne h.symm
    simp [h1]
    ring
  · simp [hne]
  · intro u hu1 hu2
    simp [hu1, hu2]

/-- C5 witness: the spec's coffee scenario (A pays 10, split with B,
C a bystander). -/
theorem C5_pair_contribution_witness :
    ∃ bal2, applyExpense ["A", "B", "C"] (fun _ => 0)
        ⟨1, "A", 10, "Coffee", some "single_split", some "B"⟩ = some bal2 ∧
      bal2 "A" = (0 : ℚ) + 10 / 2 ∧
      bal2 "B" = (0 : ℚ) - 10 / 2 ∧
      ∀ u, u ≠ "A" → u ≠ "B" → bal2 u = (0 : ℚ) :=
  C5_pair_contribution ["A", "B", "C"] (fun _ => 0)
    ⟨1, "A", 10, "Coffee", some "single_split", some "B"⟩ "B"
    rfl rfl (by decide) (by decide) (by decide)

/-! ## Claim C9 -/

/-- C9 counterexample: `calculate_balances` is not total over arbitrary
documents — a `single_split` expense carrying no `payee` field makes the
`expense["payee"]` lookup fail (a `KeyError`, `none` in the model) even
though the expense's payer is a current user. -/
theorem C9_counterexample :
    calculate_balances ⟨["A"], [⟨1, "A", 5, "d", some "single_split", none⟩], 2⟩ = none := by
  simp [calculate_balances, applyExpense, expenseType, List.foldlM]

/-- C9 (amended): on documents in which every pair-split expense carries a
payee field, `calculate_balances` is total even when the referential
invariant is violated: an expense with an unknown payer is skipped, a
pair-split expense with an unknown payee is skipped, and a group-split
expense over an empty user set is skipped, each leaving every balance
unchanged. -/
theorem C9_total_and_skip (d : Ledger)
    (hshape : ∀ e ∈ d.expenses, expenseType e = "single_split" → e.payee ≠ none) :
    (∃ bal, calculate_balances d = some bal) ∧
    (∀ (users : List String) (bal : String → ℚ) (e : Expense),
      e.payer ∉ users → applyExpense users bal e = some bal) ∧
    (∀ (users : List String) (bal : String → ℚ) (e : Expense) (payee : String),
      expenseType e = "single_split" → e.payee = some payee → payee ∉ users →
      applyExpense users bal e = some bal) ∧
    (∀ (bal : String → ℚ) (e : Expense), expenseType e = "group_split" →
      applyExpense [] bal e = some bal) := by
  refine ⟨foldl_balances_total d.users d.expenses (fun _ => 0) hshape, ?_, ?_, ?_⟩
  · intro users bal e hmem
    unfold applyExpense
    rw [if_neg hmem]
  · intro users bal e payee hs hpe hq
    have hg : ¬ expenseType e = "group_split" := by rw [hs]; decide
    unfold applyExpense
    by_cases hmem : e.payer ∈ users
    · rw [if_pos hmem, if_neg hg, if_pos hs, hpe]
      dsimp only
      rw [if_neg hq]
    · rw [if_neg hmem]
  · intro bal e hg
    unfold applyExpense
    rw [if_neg (List.not_mem_nil e.payer)]

/-- C9 witness: a document whose lone expense references a payer that is
not a current user succeeds and leaves all balances at zero. -/
theorem C9_total_and_skip_witness :
    (∃ bal, calculate_balances
        ⟨["A"], [⟨1, "Z", 5, "d", some "group_split", none⟩], 2⟩ = some bal) ∧
      applyExpense ["A"] (fun _ => 0) ⟨1, "Z", 5, "d", some "group_split", none⟩
        = some (fun _ => 0) := by
  have h := C9_total_and_skip ⟨["A"], [⟨1, "Z", 5, "d", some "group_split", none⟩], 2⟩
    (by intro e he hs; simp at he; rw [he] at hs; exact absurd hs (by decide))
  exact ⟨h.1, h.2.1 ["A"] (fun _ => 0) ⟨1, "Z", 5, "d", some "group_split", none⟩ (by decide)⟩

/-! ## Claim C6 -/

theorem filter_length_partition {α : Type} (l : List α) (p : α → Prop) [DecidablePred p] :
    (l.filter fun a => p a).length + (l.filter fun a => ¬ p a).length = l.length := by
  induction l with
  | nil => rfl
  | cons a t ih =>
    rw [List.filter_cons, List.filter_cons]
    by_cases h : p a
    · rw [if_pos (by simp [h]), if_neg (by simp [h])]
      simp only [List.length_cons]
      omega
    · rw [if_neg (by simp [h]), if_pos (by simp [h])]
      simp only [List.length_cons]
      omega

/-- C6: removing a present user (an already-stripped name) succeeds and
returns a document without that user, with every expense naming them as
payer or payee cascaded away, with `next_expense_id` untouched, and with
the reported count equal to the number of cascaded expenses. -/
theorem C6_remove_user (d : Ledger) (U : String) (h1 : pyStrip U = U) (h2 : U ∈ d.users) :
    ∃ d2 k, remove_user_name d U = (d2, .Removed k) ∧
      U ∉ d2.users ∧
      (∀ e ∈ d2.expenses, e.payer ≠ U ∧ e.payee ≠ some U) ∧
      d2.next_expense_id = d.next_expense_id ∧
      k = (d.expenses.filter fun e => e.payer = U ∨ e.payee = some U).length := by
  unfold remove_user_name
  rw [h1, if_pos h2]
  refine ⟨_, _, rfl, ?_, ?_, rfl, ?_⟩
  · simp
  · intro e he
    simp only [List.mem_filter, decide_eq_true_eq] at he
    exact he.2
  · have hpart := filter_length_partition d.expenses (fun e => e.payer ≠ U ∧ e.payee ≠ some U)
    have hcongr : (d.expenses.filter fun e => ¬ (e.payer ≠ U ∧ e.payee ≠ some U))
        = (d.expenses.filter fun e => e.payer = U ∨ e.payee = some U) := by
      apply List.filter_congr
      intro e _
      rw [decide_eq_decide]
      tauto
    rw [hcongr] at hpart
    omega

/-- C6 witness: the spec's scenario — removing B after the pair-split
coffee expense empties the expense list and keeps the id counter at 2. -/
theorem C6_remove_user_witness :
    ∃ d2 k, remove_user_name
        ⟨["A", "B"], [⟨1, "A", 10, "Coffee", some "single_split", some "B"⟩], 2⟩ "B"
        = (d2, .Removed k) ∧
      "B" ∉ d2.users ∧
      (∀ e ∈ d2.expenses, e.payer ≠ "B" ∧ e.payee ≠ some "B") ∧
      d2.next_expense_id = 2 ∧
      k = (([⟨1, "A", 10, "Coffee", some "single_split", some "B"⟩] :
          List Expense).filter fun e => e.payer = "B" ∨ e.payee = some "B").length :=
  C6_remove_user ⟨["A", "B"], [⟨1, "A", 10, "Coffee", some "single_split", some "B"⟩], 2⟩ "B"
    (by decide) (by decide)

/-! ## Claim C7 -/

/-- C7: adding a user whose stripped (non-blank) name is already a key of
`users` — the match is case-sensitive string equality — fails with the
duplicate-user reply and returns the document unchanged. -/
theorem C7_duplicate_user (d : Ledger) (text : String)
    (h1 : pyStrip text ∈ d.users) (h2 : pyStrip text ≠ "") :
    add_user_name d text = (d, .DuplicateUser) := by
  unfold add_user_name
  rw [if_neg h2, if_pos h1]

/-- C7 witness: the spec's scenario — `addUser("A")` then `addUser("A")`;
the second call fails and the ledger equals its state after the first. -/
theorem C7_duplicate_user_witness :
    add_user_name ⟨[], [], 1⟩ "A" = (⟨["A"], [], 1⟩, .Added) ∧
      add_user_name ⟨["A"], [], 1⟩ "A" = (⟨["A"], [], 1⟩, .DuplicateUser) :=
  ⟨by decide, C7_duplicate_user ⟨["A"], [], 1⟩ "A" (by decide) (by decide)⟩

/-! ## Claim C8 -/

/-- C8: in the TypingAmount step, an input that does not parse as a
decimal number, or parses to a non-positive value, leaves the buffer
untouched and the dialog in TypingAmount; an input parsing to a positive
value is stored in the buffer and the dialog advances to
TypingDescription. -/
theorem C8_amount_validation (buf : ExpenseBuffer) (text : String) :
    (parseFloat (pyStrip text) = none → amount_handler buf text = (buf, .TypingAmount)) ∧
    (∀ v : ℚ, parseFloat (pyStrip text) = some v → v ≤ 0 →
      amount_handler buf text = (buf, .TypingAmount)) ∧
    (∀ v : ℚ, parseFloat (pyStrip text) = some v → 0 < v →
      amount_handler buf text = ({ buf with amount := some v }, .TypingDescription)) := by
  refine ⟨?_, ?_, ?_⟩
  · intro h
    unfold amount_handler
    rw [h]
  · intro v h hv
    unfold amount_handler
    rw [h]
    dsimp only
    rw [if_pos hv]
  · intro v h hv
    unfold amount_handler
    rw [h]
    dsimp only
    rw [if_neg (not_le.mpr hv)]

/-- C8 witness: "-5" and "abc" are rejected in place, "15.75" is stored
and advances the dialog. -/
theorem C8_amount_validation_witness :
    amount_handler ExpenseBuffer.empty "-5" = (ExpenseBuffer.empty, .TypingAmount) ∧
      amount_handler ExpenseBuffer.empty "abc" = (ExpenseBuffer.empty, .TypingAmount) ∧
      amount_handler ExpenseBuffer.empty "15.75"
        = ({ ExpenseBuffer.empty with amount := some (63 / 4) }, .TypingDescription) := by
  have hm5 : parseFloat (pyStrip "-5") = some (-5) := by
    simp +decide [parseFloat, parseFloatChars, parseMantissa, trimChars, digitsVal, pyStrip,
      Char.isWhitespace, Char.isDigit, List.dropWhile, List.takeWhile]
  have habc : parseFloat (pyStrip "abc") = none := by
    simp +decide [parseFloat, parseFloatChars, parseMantissa, parseUnsignedInt, trimChars,
      digitsVal, pyStrip, Char.isWhitespace, Char.isDigit, List.dropWhile, List.takeWhile]
  have h1575 : parseFloat (pyStrip "15.75") = some (63 / 4) := by
    simp +decide [parseFloat, parseFloatChars, parseMantissa, trimChars, digitsVal, pyStrip,
      Char.isWhitespace, Char.isDigit, List.dropWhile, List.takeWhile]
    norm_num
  exact ⟨(C8_amount_validation ExpenseBuffer.empty "-5").2.1 (-5) hm5 (by norm_num),
    (C8_amount_validation ExpenseBuffer.empty "abc").1 habc,
    (C8_amount_validation ExpenseBuffer.empty "15.75").2.2 (63 / 4) h1575 (by norm_num)⟩

/-! ## Claim C10 -/

/-- C10: the `/clear` command and the "Settle Up" button perform the same
reset to `{users: {}, expenses: [], next_expense_id: 1}`; an expense
recorded right after a clear gets id 1 again (ids restart and may be
reused), while an ordinary `removeUser` deletion keeps the id counter
unchanged — so ids stay below the counter and a newly assigned id never
collides with any id ever assigned before. -/
theorem C10_clear_reset (d : Ledger) (buf : ExpenseBuffer) :
    clear_ledger d = freshLedger ∧
    (button_handler d buf "settle").1 = freshLedger ∧
    (∀ (text p : String) (a : ℚ) (ty : String), pyStrip text ≠ "" →
      ∃ e : Expense,
        (desc_handler freshLedger ⟨some p, some ty, none, some a⟩ text).1.expenses = [e] ∧
        e.id = 1) ∧
    (∀ (text : String) (d2 : Ledger) (k : Nat),
      remove_user_name d text = (d2, .Removed k) →
      d2.next_expense_id = d.next_expense_id ∧
      (∀ e ∈ d.expenses, e.id < d.next_expense_id → e.id < d2.next_expense_id)) ∧
    (∀ (text p : String) (a : ℚ) (ty : String), pyStrip text ≠ "" →
      (desc_handler d ⟨some p, some ty, none, some a⟩ text).1.next_expense_id
        = d.next_expense_id + 1 ∧
      ((desc_handler d ⟨some p, some ty, none, some a⟩ text).1.expenses.map Expense.id)
        = d.expenses.map Expense.id ++ [d.next_expense_id] ∧
      ((∀ e ∈ d.expenses, e.id < d.next_expense_id) →
        ∀ e ∈ d.expenses, e.id ≠ d.next_expense_id)) := by
  refine ⟨rfl, by simp +decide [button_handler, freshLedger], ?_, ?_, ?_⟩
  · intro text p a ty h
    unfold desc_handler
    rw [if_neg h]
    exact ⟨_, rfl, rfl⟩
  · intro text d2 k h
    unfold remove_user_name at h
    by_cases hmem : pyStrip text ∈ d.users
    · rw [if_pos hmem] at h
      have h1 := congrArg Prod.fst h
      dsimp at h1
      rw [← h1]
      exact ⟨rfl, fun e _ he => he⟩
    · rw [if_neg hmem] at h
      have h2 := congrArg Prod.snd h
      simp at h2
  · intro text p a ty h
    unfold desc_handler
    rw [if_neg h]
    refine ⟨rfl, by simp, fun hfr e he => Nat.ne_of_lt (hfr e he)⟩

/-- C10 witness: clearing a one-expense ledger via both paths and adding
an expense afterwards reassigns id 1; removing the user keeps the
counter. -/
theorem C10_clear_reset_witness :
    clear_ledger ⟨["A"], [⟨1, "A", 5, "d", some "group_split", none⟩], 2⟩ = freshLedger ∧
      (button_handler ⟨["A"], [⟨1, "A", 5, "d", some "group_split", none⟩], 2⟩
        ExpenseBuffer.empty "settle").1 = freshLedger ∧
      (∃ e : Expense,
        (desc_handler freshLedger ⟨some "A", some "group_split", none, some 5⟩ "t").1.expenses
          = [e] ∧ e.id = 1) := by
  have h := C10_clear_reset ⟨["A"], [⟨1, "A", 5, "d", some "group_split", none⟩], 2⟩
    ExpenseBuffer.empty
  exact ⟨h.1, h.2.1, h.2.2.1 "t" "A" 5 "group_split" (by decide)⟩

/-! ## Claim C1 -/

/-- C1 counterexample: a stale `payer_B` press with B not a current user
does not keep the dialog in ChoosingPayer with an unset payer — the code
stores B and advances to the split-kind step; likewise a stale
`split_single_A` press with A equal to the buffered payer does not keep
the dialog in ChoosingSplitKind with payee and split kind unset — the
code stores them and advances to TypingAmount. -/
theorem C1_counterexample :
    ¬ ((button_handler ⟨["A"], [], 1⟩ ExpenseBuffer.empty "payer_B").2.2
          = DialogState.ChoosingPayer ∧
        (button_handler ⟨["A"], [], 1⟩ ExpenseBuffer.empty "payer_B").2.1.payer = none) ∧
      ¬ ((button_handler ⟨["A"], [], 1⟩ ⟨some "A", none, none, none⟩ "split_single_A").2.2
          = DialogState.ChoosingSplitKind ∧
        (button_handler ⟨["A"], [], 1⟩ ⟨some "A", none, none, none⟩
            "split_single_A").2.1.payee = none ∧
        (button_handler ⟨["A"], [], 1⟩ ⟨some "A", none, none, none⟩
            "split_single_A").2.1.etype = none) := by
  constructor
  · intro h
    have := h.1
    revert this
    decide
  · intro h
    have := h.1
    revert this
    decide

theorem isPrefixOf_append (p : List Char) :
    ∀ l : List Char, p.isPrefixOf l = true → ∃ t, p ++ t = l := by
  induction p with
  | nil => exact fun l _ => ⟨l, rfl⟩
  | cons c cs ih =>
    intro l h
    cases l with
    | nil => simp [List.isPrefixOf] at h
    | cons d ds =>
      simp only [List.isPrefixOf, Bool.and_eq_true, beq_iff_eq] at h
      obtain ⟨rfl, h2⟩ := h
      obtain ⟨t, ht⟩ := ih ds h2
      exact ⟨t, by rw [List.cons_append, ht]⟩

/-- C1 (amended): the expense-dialog button branches perform no validation
at all — a `payer_…` press stores the name extracted from the callback
token and advances to the split-kind step whether or not that name is a
current user, and a `split_single_…` press stores the extracted payee and
the split kind and advances to the amount step whether or not the payee
is a current user or equals the buffered payer. -/
theorem C1_no_stale_validation (d : Ledger) (buf : ExpenseBuffer) (data : String) :
    ("payer_".toList.isPrefixOf data.toList = true →
      button_handler d buf data
        = (d, { buf with payer := some (payerFromData data) }, .ChoosingSplitKind)) ∧
    ("split_single_".toList.isPrefixOf data.toList = true →
      button_handler d buf data
        = (d, { buf with etype := some "single_split",
                         payee := some (payeeFromData data) }, .TypingAmount)) := by
  have hne : ∀ s : String, "payer_".toList.isPrefixOf s.toList = true ∨
      "split_single_".toList.isPrefixOf s.toList = true → s ≠ "add_expense" ∧
      s ≠ "view_summary" ∧ s ≠ "view_expenses_log" ∧ s ≠ "manage_users" ∧
      s ≠ "settle" ∧ s ≠ "menu" ∧ s ≠ "split_group" := by
    intro s hs
    refine ⟨?_, ?_, ?_, ?_, ?_, ?_, ?_⟩ <;>
      · intro heq
        subst heq
        rcases hs with hs | hs <;> revert hs <;> decide
  constructor
  · intro hp
    obtain ⟨h1, h2, h3, h4, h5, h6, _⟩ := hne data (Or.inl hp)
    unfold button_handler
    rw [if_neg h1, if_neg h2, if_neg h3, if_neg h4, if_neg h5, if_neg h6, if_pos hp]
  · intro hp
    obtain ⟨h1, h2, h3, h4, h5, h6, h7⟩ := hne data (Or.inr hp)
    have hnp : ¬ ("payer_".toList.isPrefixOf data.toList = true) := by
      intro hq
      obtain ⟨t1, ht1⟩ := isPrefixOf_append _ _ hq
      obtain ⟨t2, ht2⟩ := isPrefixOf_append _ _ hp
      rw [← ht2] at ht1
      simp at ht1
    unfold button_handler
    rw [if_neg h1, if_neg h2, if_neg h3, if_neg h4, if_neg h5, if_neg h6]
    rw [if_neg hnp, if_neg h7, if_pos hp]

/-- C1 witness: concrete stale presses — `payer_B` with only A in the
ledger, and `split_single_A` with A the buffered payer. -/
theorem C1_no_stale_validation_witness :
    button_handler ⟨["A"], [], 1⟩ ExpenseBuffer.empty "payer_B"
      = (⟨["A"], [], 1⟩, { ExpenseBuffer.empty with payer := some (payerFromData "payer_B") },
         .ChoosingSplitKind) ∧
    button_handler ⟨["A"], [], 1⟩ ⟨some "A", none, none, none⟩ "split_single_A"
      = (⟨["A"], [], 1⟩, { (⟨some "A", none, none, none⟩ : ExpenseBuffer) with
          etype := some "single_split", payee := some (payeeFromData "split_single_A") },
         .TypingAmount) ∧
    payerFromData "payer_B" = "B" ∧ payeeFromData "split_single_A" = "A" :=
  ⟨(C1_no_stale_validation ⟨["A"], [], 1⟩ ExpenseBuffer.empty "payer_B").1 (by decide),
   (C1_no_stale_validation ⟨["A"], [], 1⟩ ⟨some "A", none, none, none⟩ "split_single_A").2
     (by decide),
   by decide, by decide⟩

/-! ## Rounding lemmas -/

theorem round2_ge (q : ℚ) (h : 1/100 ≤ q) : 1/100 ≤ round2 q := by
  have h1 : (1 : ℤ) ≤ round (100 * q) := by
    rw [round_eq]
    refine Int.le_floor.mpr ?_
    push_cast
    linarith
  have h2 : (1 : ℚ) ≤ ((round (100 * q) : ℤ) : ℚ) := by exact_mod_cast h1
  unfold round2
  linarith

theorem round2_le_neg (q : ℚ) (h : q ≤ -(1/100)) : round2 q ≤ -(1/100) := by
  have h1 : round (100 * q) ≤ -1 := by
    rw [round_eq]
    have hle : (100 : ℚ) * q + 1/2 ≤ -(1/2) := by linarith
    calc ⌊(100 : ℚ) * q + 1/2⌋ ≤ ⌊(-(1/2) : ℚ)⌋ := Int.floor_le_floor hle
      _ = -1 := by norm_num [Int.floor_eq_iff]
  have h2 : ((round (100 * q) : ℤ) : ℚ) ≤ -1 := by exact_mod_cast h1
  unfold round2
  linarith

theorem abs_sub_round2 (q : ℚ) : |q - round2 q| ≤ 1/200 := by
  have h := abs_sub_round ((100 : ℚ) * q)
  unfold round2
  have h2 : q - (round (100 * q) : ℚ) / 100 = (100 * q - (round (100 * q) : ℚ)) / 100 := by
    ring
  rw [h2, abs_div]
  rw [abs_of_pos (by norm_num : (0:ℚ) < 100)]
  linarith

/-! ## Claim C3 -/

theorem mem_debtors_names (b : List (String × ℚ)) (u : String) :
    u ∈ (debtorsOf b).map Prod.fst ↔
      ∃ q, (u, q) ∈ b ∧ 1/100 ≤ |q| ∧ round2 q < 0 := by
  unfold debtorsOf rounded_balances
  simp only [List.map_map, List.mem_map, List.mem_filter, decide_eq_true_eq,
    Function.comp_apply]
  constructor
  · rintro ⟨⟨u2, q2⟩, ⟨⟨⟨⟨u3, q3⟩, ⟨h1, h2⟩, h3⟩, h4⟩, h5⟩⟩
    obtain ⟨rfl, rfl⟩ := Prod.mk.injEq .. ▸ And.intro (congrArg Prod.fst h3) (congrArg Prod.snd h3)
    exact ⟨q3, by simpa using h5 ▸ h1, h2, h4⟩
  · rintro ⟨q, h1, h2, h3⟩
    exact ⟨(u, round2 q), ⟨⟨(u, q), ⟨h1, h2⟩, rfl⟩, h3⟩, rfl⟩

theorem mem_creditors_names (b : List (String × ℚ)) (u : String) :
    u ∈ (creditorsOf b).map Prod.fst ↔
      ∃ q, (u, q) ∈ b ∧ 1/100 ≤ |q| ∧ 0 < round2 q := by
  unfold creditorsOf rounded_balances
  simp only [List.map_map, List.mem_map, List.mem_filter, decide_eq_true_eq,
    Function.comp_apply]
  constructor
  · rintro ⟨⟨u2, q2⟩, ⟨⟨⟨u3, q3⟩, ⟨h1, h2⟩, h3⟩, h4⟩, h5⟩
    obtain ⟨rfl, rfl⟩ := Prod.mk.injEq .. ▸ And.intro (congrArg Prod.fst h3) (congrArg Prod.snd h3)
    exact ⟨q3, by simpa using h5 ▸ h1, h2, h4⟩
  · rintro ⟨q, h1, h2, h3⟩
    exact ⟨(u, round2 q), ⟨⟨(u, q), ⟨h1, h2⟩, rfl⟩, h3⟩, rfl⟩

theorem assoc_value_unique (b : List (String × ℚ)) (hnd : (b.map Prod.fst).Nodup)
    (u : String) (q q2 : ℚ) (h1 : (u, q) ∈ b) (h2 : (u, q2) ∈ b) : q = q2 := by
  induction b with
  | nil => cases h1
  | cons p t ih =>
    rw [List.map_cons, List.nodup_cons] at hnd
    rcases List.mem_cons.mp h1 with ha | ha <;> rcases List.mem_cons.mp h2 with hb | hb
    · rw [← hb] at ha
      exact congrArg Prod.snd ha
    · exfalso
      apply hnd.1
      rw [← ha]
      simpa using List.mem_map_of_mem Prod.fst hb
    · exfalso
      apply hnd.1
      rw [← hb]
      simpa using List.mem_map_of_mem Prod.fst ha
    · exact ih hnd.2 ha hb

/-- C3 counterexample: a balance of `0.009` rounds to `0.01` (magnitude
at least `0.01`), yet its user does not take part in the matching — the
comprehension's filter tests the unrounded balance. -/
theorem C3_counterexample :
    ¬ (("A" ∈ settleParticipants [("A", (9/1000 : ℚ))]) ↔
        1/100 ≤ |round2 (9/1000 : ℚ)|) := by
  intro h
  have h2 : (1:ℚ)/100 ≤ |round2 (9/1000 : ℚ)| := by
    norm_num [round2, round_eq, abs_of_nonneg]
  have h3 := h.mpr h2
  revert h3
  norm_num [settleParticipants, debtorsOf, creditorsOf, rounded_balances, abs_of_nonneg]

/-- C3 (amended): a user takes part in the debtor/creditor matching of
`simplify_settlements` exactly when the absolute value of their
*unrounded* balance is at least `0.01`; the rounding to two decimals is
applied to the stored amount of each retained user, not to the inclusion
test. -/
theorem C3_participation (b : List (String × ℚ)) (hnd : (b.map Prod.fst).Nodup)
    (u : String) (q : ℚ) (hm : (u, q) ∈ b) :
    u ∈ settleParticipants b ↔ 1/100 ≤ |q| := by
  unfold settleParticipants
  rw [List.mem_append, mem_debtors_names, mem_creditors_names]
  constructor
  · rintro (⟨q2, hq2, habs, _⟩ | ⟨q2, hq2, habs, _⟩) <;>
      rw [assoc_value_unique b hnd u q q2 hm hq2] <;> exact habs
  · intro habs
    rcases le_abs.mp habs with hpos | hneg
    · exact Or.inr ⟨q, hm, habs, lt_of_lt_of_le (by norm_num) (round2_ge q hpos)⟩
    · have hq : q ≤ -(1/100) := by linarith
      exact Or.inl ⟨q, hm, habs, lt_of_le_of_lt (round2_le_neg q hq) (by norm_num)⟩

/-- C3 witness: with balances `{A: 0.02, B: -0.02, C: 0.003}`, A and B
take part and C does not. -/
theorem C3_participation_witness :
    ("A" ∈ settleParticipants [("A", (1/50 : ℚ)), ("B", -(1/50 : ℚ)), ("C", (3/1000 : ℚ))] ↔
      (1:ℚ)/100 ≤ |(1/50 : ℚ)|) ∧
    ("C" ∈ settleParticipants [("A", (1/50 : ℚ)), ("B", -(1/50 : ℚ)), ("C", (3/1000 : ℚ))] ↔
      (1:ℚ)/100 ≤ |(3/1000 : ℚ)|) :=
  ⟨C3_participation _ (by decide) "A" (1/50) (by simp),
   C3_participation _ (by decide) "C" (3/1000) (by simp)⟩

/-! ## Claim C2: infrastructure

All remainders handled by the sweep are integer multiples of `0.01`
(`round(·, 2)` produces them and `min`/subtraction preserve them), so a
remainder drops below `0.01` exactly when it reaches `0`. -/

/-- An integer number of cents. -/
def IsCent (q : ℚ) : Prop := ∃ k : ℤ, q = (k : ℚ) / 100

theorem isCent_round2 (q : ℚ) : IsCent (round2 q) := ⟨round (100 * q), rfl⟩

theorem isCent_neg {q : ℚ} (h : IsCent q) : IsCent (-q) := by
  obtain ⟨k, rfl⟩ := h
  exact ⟨-k, by push_cast; ring⟩

theorem isCent_sub {a b : ℚ} (ha : IsCent a) (hb : IsCent b) : IsCent (a - b) := by
  obtain ⟨j, rfl⟩ := ha
  obtain ⟨k, rfl⟩ := hb
  exact ⟨j - k, by push_cast; ring⟩

theorem isCent_min {a b : ℚ} (ha : IsCent a) (hb : IsCent b) : IsCent (min a b) := by
  rcases min_choice a b with h | h <;> rw [h] <;> assumption

theorem isCent_eq_zero {q : ℚ} (h : IsCent q) (h0 : 0 ≤ q) (hlt : q < 1/100) : q = 0 := by
  obtain ⟨k, rfl⟩ := h
  have h1 : (0 : ℚ) ≤ (k : ℚ) := by linarith
  have h2 : (k : ℚ) < 1 := by linarith
  have h3 : (0 : ℤ) ≤ k := by exact_mod_cast h1
  have h4 : k < 1 := by exact_mod_cast h2
  have : k = 0 := by omega
  rw [this]
  norm_num

theorem isCent_pos_ge {q : ℚ} (h : IsCent q) (h0 : 0 < q) : 1/100 ≤ q := by
  by_contra hlt
  have := isCent_eq_zero h (le_of_lt h0) (not_le.mp hlt)
  linarith

theorem isCent_neg_le {q : ℚ} (h : IsCent q) (h0 : q < 0) : q ≤ -(1/100) := by
  have := isCent_pos_ge (isCent_neg h) (by linarith)
  linarith

/-- Every entry is at least one cent and an integer number of cents. -/
def GoodList (l : List (String × ℚ)) : Prop :=
  ∀ p ∈ l, 1/100 ≤ p.2 ∧ IsCent p.2

theorem goodList_tail {p : String × ℚ} {l : List (String × ℚ)} (h : GoodList (p :: l)) :
    GoodList l := fun r hr => h r (List.mem_cons_of_mem p hr)

theorem good_sum_nonneg (l : List (String × ℚ)) (h : GoodList l) :
    0 ≤ ((l.map fun p => p.2).sum) := by
  induction l with
  | nil => simp
  | cons p t ih =>
    have hp := (h p (List.mem_cons_self p t)).1
    have ht := ih (goodList_tail h)
    simp only [List.map_cons, List.sum_cons]
    linarith

theorem good_debtors (b : List (String × ℚ)) : GoodList (debtorsOf b) := by
  intro p hp
  unfold debtorsOf at hp
  obtain ⟨r, hr, rfl⟩ := List.mem_map.mp hp
  have hneg : r.2 < 0 := by
    have := List.mem_filter.mp hr
    simpa using this.2
  have hcent : IsCent r.2 := by
    have hmem := (List.mem_filter.mp hr).1
    unfold rounded_balances at hmem
    obtain ⟨s, _, hs⟩ := List.mem_map.mp hmem
    rw [← hs]
    exact isCent_round2 s.2
  exact ⟨by have := isCent_neg_le hcent hneg; simp only; linarith, isCent_neg hcent⟩

theorem good_creditors (b : List (String × ℚ)) : GoodList (creditorsOf b) := by
  intro p hp
  unfold creditorsOf at hp
  have hpos : 0 < p.2 := by
    have := List.mem_filter.mp hp
    simpa using this.2
  have hcent : IsCent p.2 := by
    have hmem := (List.mem_filter.mp hp).1
    unfold rounded_balances at hmem
    obtain ⟨s, _, hs⟩ := List.mem_map.mp hmem
    rw [← hs]
    exact isCent_round2 s.2
  exact ⟨isCent_pos_ge hcent hpos, hcent⟩

/-! Per-name bookkeeping of the sweep's output. -/

theorem amtOf_nil (u : String) : amtOf u [] = 0 := rfl

theorem amtOf_cons (u x : String) (y : ℚ) (l : List (String × ℚ)) :
    amtOf u ((x, y) :: l) = (if x = u then y else 0) + amtOf u l := by
  unfold amtOf
  rw [List.filter_cons]
  by_cases h : x = u
  · rw [if_pos (by simp [h])]
    simp [h]
  · rw [if_neg (by simp [h])]
    simp [h]

theorem paidSum_nil (u : String) : paidSum u [] = 0 := rfl

theorem paidSum_cons (u a b : String) (c : ℚ) (l : List (String × String × ℚ)) :
    paidSum u ((a, b, c) :: l) = (if a = u then c else 0) + paidSum u l := by
  unfold paidSum
  rw [List.filter_cons]
  by_cases h : a = u
  · rw [if_pos (by simp [h])]
    simp [h]
  · rw [if_neg (by simp [h])]
    simp [h]

theorem recvSum_nil (u : String) : recvSum u [] = 0 := rfl

theorem recvSum_cons (u a b : String) (c : ℚ) (l : List (String × String × ℚ)) :
    recvSum u ((a, b, c) :: l) = (if b = u then c else 0) + recvSum u l := by
  unfold recvSum
  rw [List.filter_cons]
  by_cases h : b = u
  · rw [if_pos (by simp [h])]
    simp [h]
  · rw [if_neg (by simp [h])]
    simp [h]

theorem paidSum_append (u : String) (l1 l2 : List (String × String × ℚ)) :
    paidSum u (l1 ++ l2) = paidSum u l1 + paidSum u l2 := by
  unfold paidSum
  rw [List.filter_append, List.map_append, List.sum_append]

theorem recvSum_append (u : String) (l1 l2 : List (String × String × ℚ)) :
    recvSum u (l1 ++ l2) = recvSum u l1 + recvSum u l2 := by
  unfold recvSum
  rw [List.filter_append, List.map_append, List.sum_append]

/-- Invariant of the inner sweep: while debtor `dn` (remainder `da`, at
least one cent, a whole number of cents) is matched against a good
creditor list whose total covers `da`, the events pay out exactly `da`
from `dn`, and each creditor's received amount plus their remaining
amount equals their original amount; the remaining list is again good and
its total drops by `da`. -/
theorem feedOneAll_spec (dn : String) :
    ∀ (cs : List (String × ℚ)) (da : ℚ), 1/100 ≤ da → IsCent da → GoodList cs →
      da ≤ ((cs.map fun p => p.2).sum) →
      GoodList (feedOneAll dn da cs).2 ∧
      (((feedOneAll dn da cs).2.map fun p => p.2).sum = ((cs.map fun p => p.2).sum) - da) ∧
      (∀ u, recvSum u (feedOneAll dn da cs).1 + amtOf u (feedOneAll dn da cs).2 = amtOf u cs) ∧
      (∀ u, paidSum u (feedOneAll dn da cs).1 = if u = dn then da else 0) := by
  intro cs
  induction cs with
  | nil =>
    intro da hda _ _ hsum
    simp only [List.map_nil, List.sum_nil] at hsum
    linarith
  | cons c cs ih =>
    obtain ⟨cn, ca⟩ := c
    intro da hda hdaCent hgood hsum
    have hca := hgood (cn, ca) (List.mem_cons_self _ _)
    have hgt := goodList_tail hgood
    simp only [List.map_cons, List.sum_cons] at hsum
    by_cases hdc : da ≤ ca
    · have hmin : min da ca = da := min_eq_left hdc
      by_cases hsmall : ca - da < 1/100
      · have hzero : ca - da = 0 :=
          isCent_eq_zero (isCent_sub hca.2 hdaCent) (by linarith) hsmall
        have hres : feedOneAll dn da ((cn, ca) :: cs) = ([(dn, cn, da)], cs) := by
          simp only [feedOneAll, hmin]
          rw [if_pos hdc, if_pos hsmall]
        rw [hres]
        refine ⟨hgt, ?_, ?_, ?_⟩
        · simp only [List.map_cons, List.sum_cons]
          linarith
        · intro u
          rw [recvSum_cons, recvSum_nil, amtOf_cons]
          by_cases hcn : cn = u <;> simp [hcn] <;> try linarith
        · intro u
          rw [paidSum_cons, paidSum_nil]
          by_cases hu : u = dn
          · simp [hu]
          · have h2 : dn ≠ u := fun h => hu h.symm
            simp [hu, h2]
      · have hres : feedOneAll dn da ((cn, ca) :: cs)
            = ([(dn, cn, da)], (cn, ca - da) :: cs) := by
          simp only [feedOneAll, hmin]
          rw [if_pos hdc, if_neg hsmall]
        rw [hres]
        refine ⟨?_, ?_, ?_, ?_⟩
        · intro p hp
          rcases List.mem_cons.mp hp with h | h
          · rw [h]
            exact ⟨not_lt.mp hsmall, isCent_sub hca.2 hdaCent⟩
          · exact hgt p h
        · simp only [List.map_cons, List.sum_cons]
          ring
        · intro u
          rw [recvSum_cons, recvSum_nil, amtOf_cons, amtOf_cons]
          by_cases hcn : cn = u <;> simp [hcn] <;> try linarith
        · intro u
          rw [paidSum_cons, paidSum_nil]
          by_cases hu : u = dn
          · simp [hu]
          · have h2 : dn ≠ u := fun h => hu h.symm
            simp [hu, h2]
    · push_neg at hdc
      have hmin : min da ca = ca := min_eq_right (le_of_lt hdc)
      have hdCent2 : IsCent (da - ca) := isCent_sub hdaCent hca.2
      have hdge : 1/100 ≤ da - ca := isCent_pos_ge hdCent2 (by linarith)
      have hres : feedOneAll dn da ((cn, ca) :: cs)
          = ((dn, cn, ca) :: (feedOneAll dn (da - ca) cs).1,
             (feedOneAll dn (da - ca) cs).2) := by
        simp only [feedOneAll, hmin]
        rw [if_neg (not_le.mpr hdc), if_neg (not_lt.mpr hdge)]
      obtain ⟨ih1, ih2, ih3, ih4⟩ := ih (da - ca) hdge hdCent2 hgt (by linarith)
      rw [hres]
      refine ⟨ih1, ?_, ?_, ?_⟩
      · rw [ih2]
        simp only [List.map_cons, List.sum_cons]
        ring
      · intro u
        rw [recvSum_cons, amtOf_cons]
        have h3 := ih3 u
        by_cases hcn : cn = u <;> simp [hcn] <;> linarith
      · intro u
        rw [paidSum_cons, ih4 u]
        by_cases hu : u = dn
        · subst hu
          simp
        · have h2 : dn ≠ u := fun h => hu h.symm
          simp [hu, h2]

theorem good_sum_zero (l : List (String × ℚ)) (h : GoodList l)
    (hz : ((l.map fun p => p.2).sum) = 0) : l = [] := by
  cases l with
  | nil => rfl
  | cons p t =>
    exfalso
    have hp := (h p (List.mem_cons_self p t)).1
    have ht := good_sum_nonneg t (goodList_tail h)
    simp only [List.map_cons, List.sum_cons] at hz
    linarith

/-- When the debtor and creditor totals agree, the sweep's events pay out
exactly each debtor's amount and deliver exactly each creditor's
amount. -/
theorem settleLoopAll_spec :
    ∀ (D C : List (String × ℚ)), GoodList D → GoodList C →
      ((D.map fun p => p.2).sum = (C.map fun p => p.2).sum) →
      (∀ u, paidSum u (settleLoopAll D C) = amtOf u D) ∧
      (∀ u, recvSum u (settleLoopAll D C) = amtOf u C) := by
  intro D
  induction D with
  | nil =>
    intro C _ hCg hsum
    have hC : C = [] := good_sum_zero C hCg (by simp at hsum; linarith [hsum.symm])
    subst hC
    exact ⟨fun u => rfl, fun u => rfl⟩
  | cons d D ih =>
    obtain ⟨dn, da⟩ := d
    intro C hDg hCg hsum
    have hda := hDg (dn, da) (List.mem_cons_self _ _)
    have hDt := goodList_tail hDg
    simp only [List.map_cons, List.sum_cons] at hsum
    cases C with
    | nil =>
      exfalso
      have h1 := good_sum_nonneg D hDt
      simp only [List.map_nil, List.sum_nil] at hsum
      have hda1 : (1:ℚ)/100 ≤ da := hda.1
      linarith
    | cons c cs =>
      have hda1 : (1:ℚ)/100 ≤ da := hda.1
      have hnn := good_sum_nonneg D hDt
      have hcover : da ≤ (((c :: cs).map fun p => p.2).sum) := by linarith
      obtain ⟨hG2, hS2, hRecv, hPaid⟩ :=
        feedOneAll_spec dn (c :: cs) da hda1 hda.2 hCg hcover
      have hsum2 : ((D.map fun p => p.2).sum)
          = (((feedOneAll dn da (c :: cs)).2.map fun p => p.2).sum) := by
        rw [hS2]
        linarith
      obtain ⟨ihP, ihR⟩ := ih (feedOneAll dn da (c :: cs)).2 hDt hG2 hsum2
      have hloop : settleLoopAll ((dn, da) :: D) (c :: cs)
          = (feedOneAll dn da (c :: cs)).1
            ++ settleLoopAll D (feedOneAll dn da (c :: cs)).2 := by
        simp only [settleLoopAll]
      constructor
      · intro u
        rw [hloop, paidSum_append, hPaid u, ihP u, amtOf_cons]
        by_cases hu : u = dn
        · subst hu
          simp
        · have h2 : dn ≠ u := fun h => hu h.symm
          simp [hu, h2]
      · intro u
        rw [hloop, recvSum_append]
        have h3 := hRecv u
        have h4 := ihR u
        linarith

/-- Every suggestion the sweep emits strictly exceeds one cent (line 236
uses a strict comparison). -/
theorem feedOne_emitted (dn : String) :
    ∀ (cs : List (String × ℚ)) (da : ℚ) (ev : String × String × ℚ),
      ev ∈ (feedOne dn da cs).1 → 1/100 < ev.2.2 := by
  intro cs
  induction cs with
  | nil => intro da ev h; cases h
  | cons c cs ih =>
    obtain ⟨cn, ca⟩ := c
    intro da ev h
    by_cases hdc : da ≤ ca
    · rw [show feedOne dn da ((cn, ca) :: cs)
          = ((if 1/100 < min da ca then [(dn, cn, min da ca)] else []),
             if ca - min da ca < 1/100 then cs else (cn, ca - min da ca) :: cs) by
        simp only [feedOne]; rw [if_pos hdc]] at h
      by_cases hem : (1:ℚ)/100 < min da ca
      · rw [if_pos hem] at h
        rcases List.mem_singleton.mp h with rfl
        exact hem
      · rw [if_neg hem] at h
        cases h
    · by_cases hsm : da - min da ca < 1/100
      · rw [show feedOne dn da ((cn, ca) :: cs)
            = ((if 1/100 < min da ca then [(dn, cn, min da ca)] else []), cs) by
          simp only [feedOne]; rw [if_neg hdc, if_pos hsm]] at h
        by_cases hem : (1:ℚ)/100 < min da ca
        · rw [if_pos hem] at h
          rcases List.mem_singleton.mp h with rfl
          exact hem
        · rw [if_neg hem] at h
          cases h
      · rw [show feedOne dn da ((cn, ca) :: cs)
            = ((if 1/100 < min da ca then [(dn, cn, min da ca)] else [])
                ++ (feedOne dn (da - min da ca) cs).1,
               (feedOne dn (da - min da ca) cs).2) by
          simp only [feedOne]; rw [if_neg hdc, if_neg hsm]] at h
        rcases List.mem_append.mp h with h | h
        · by_cases hem : (1:ℚ)/100 < min da ca
          · rw [if_pos hem] at h
            rcases List.mem_singleton.mp h with rfl
            exact hem
          · rw [if_neg hem] at h
            cases h
        · exact ih (da - min da ca) ev h

theorem settleLoop_emitted :
    ∀ (D C : List (String × ℚ)) (ev : String × String × ℚ),
      ev ∈ settleLoop D C → 1/100 < ev.2.2 := by
  intro D
  induction D with
  | nil => intro C ev h; cases h
  | cons d D ih =>
    obtain ⟨dn, da⟩ := d
    intro C ev h
    cases C with
    | nil => cases h
    | cons c cs =>
      rw [show settleLoop ((dn, da) :: D) (c :: cs)
          = (feedOne dn da (c :: cs)).1 ++ settleLoop D (feedOne dn da (c :: cs)).2 by
        simp only [settleLoop]] at h
      rcases List.mem_append.mp h with h | h
      · exact feedOne_emitted dn (c :: cs) da ev h
      · exact ih (feedOne dn da (c :: cs)).2 ev h

/-- When every settlement event of the sweep exceeds one cent, the
emitting sweep and the full sweep coincide. -/
theorem feedOne_eq_all (dn : String) :
    ∀ (cs : List (String × ℚ)) (da : ℚ),
      (∀ ev ∈ (feedOneAll dn da cs).1, 1/100 < ev.2.2) →
      feedOne dn da cs = feedOneAll dn da cs := by
  intro cs
  induction cs with
  | nil => intro da _; rfl
  | cons c cs ih =>
    obtain ⟨cn, ca⟩ := c
    intro da hbig
    by_cases hdc : da ≤ ca
    · have hall : feedOneAll dn da ((cn, ca) :: cs)
          = ([(dn, cn, min da ca)],
             if ca - min da ca < 1/100 then cs else (cn, ca - min da ca) :: cs) := by
        simp only [feedOneAll]; rw [if_pos hdc]
      have hem : (1:ℚ)/100 < min da ca := by
        have := hbig (dn, cn, min da ca) (by rw [hall]; exact List.mem_singleton_self _)
        exact this
      simp only [feedOne, feedOneAll]
      rw [if_pos hdc, if_pos hdc, if_pos hem]
    · by_cases hsm : da - min da ca < 1/100
      · have hall : feedOneAll dn da ((cn, ca) :: cs) = ([(dn, cn, min da ca)], cs) := by
          simp only [feedOneAll]; rw [if_neg hdc, if_pos hsm]
        have hem : (1:ℚ)/100 < min da ca := by
          have := hbig (dn, cn, min da ca) (by rw [hall]; exact List.mem_singleton_self _)
          exact this
        simp only [feedOne, feedOneAll]
        rw [if_neg hdc, if_neg hdc, if_pos hsm, if_pos hsm, if_pos hem]
      · have hall : feedOneAll dn da ((cn, ca) :: cs)
            = ((dn, cn, min da ca) :: (feedOneAll dn (da - min da ca) cs).1,
               (feedOneAll dn (da - min da ca) cs).2) := by
          simp only [feedOneAll]; rw [if_neg hdc, if_neg hsm]
        have hem : (1:ℚ)/100 < min da ca := by
          have := hbig (dn, cn, min da ca) (by rw [hall]; exact List.mem_cons_self _ _)
          exact this
        have hrec : feedOne dn (da - min da ca) cs = feedOneAll dn (da - min da ca) cs := by
          apply ih
          intro ev hev
          apply hbig
          rw [hall]
          exact List.mem_cons_of_mem _ hev
        simp only [feedOne, feedOneAll]
        rw [if_neg hdc, if_neg hdc, if_neg hsm, if_neg hsm, if_pos hem, hrec]
        rfl

theorem settleLoop_eq_all :
    ∀ (D C : List (String × ℚ)),
      (∀ ev ∈ settleLoopAll D C, 1/100 < ev.2.2) →
      settleLoop D C = settleLoopAll D C := by
  intro D
  induction D with
  | nil => intro C _; rfl
  | cons d D ih =>
    obtain ⟨dn, da⟩ := d
    intro C hbig
    cases C with
    | nil => rfl
    | cons c cs =>
      have hall : settleLoopAll ((dn, da) :: D) (c :: cs)
          = (feedOneAll dn da (c :: cs)).1
            ++ settleLoopAll D (feedOneAll dn da (c :: cs)).2 := by
        simp only [settleLoopAll]
      have hfeed : feedOne dn da (c :: cs) = feedOneAll dn da (c :: cs) := by
        apply feedOne_eq_all
        intro ev hev
        apply hbig
        rw [hall]
        exact List.mem_append_left _ hev
      have hrec : settleLoop D (feedOneAll dn da (c :: cs)).2
          = settleLoopAll D (feedOneAll dn da (c :: cs)).2 := by
        apply ih
        intro ev hev
        apply hbig
        rw [hall]
        exact List.mem_append_right _ hev
      simp only [settleLoop, settleLoopAll]
      rw [hfeed, hrec]

theorem amtOf_append (u : String) (l1 l2 : List (String × ℚ)) :
    amtOf u (l1 ++ l2) = amtOf u l1 + amtOf u l2 := by
  unfold amtOf
  rw [List.filter_append, List.map_append, List.sum_append]

theorem amtOf_zero (u : String) (l : List (String × ℚ)) (h : ∀ p ∈ l, p.1 ≠ u) :
    amtOf u l = 0 := by
  unfold amtOf
  have hf : l.filter (fun p => p.1 = u) = [] := by
    rw [List.filter_eq_nil_iff]
    intro p hp
    simp [h p hp]
  rw [hf]
  rfl

theorem rounded_cons (u0 : String) (q0 : ℚ) (b : List (String × ℚ)) :
    rounded_balances ((u0, q0) :: b)
      = (if 1/100 ≤ |q0| then [(u0, round2 q0)] else []) ++ rounded_balances b := by
  unfold rounded_balances
  rw [List.filter_cons]
  by_cases h : (1:ℚ)/100 ≤ |q0|
  · rw [if_pos (by simpa using h), if_pos h]
    simp
  · rw [if_neg (by simpa using h), if_neg h]
    simp

theorem debtors_cons (u0 : String) (q0 : ℚ) (b : List (String × ℚ)) :
    debtorsOf ((u0, q0) :: b)
      = (if 1/100 ≤ |q0| ∧ round2 q0 < 0 then [(u0, -(round2 q0))] else [])
        ++ debtorsOf b := by
  unfold debtorsOf
  rw [rounded_cons, List.filter_append, List.map_append]
  congr 1
  by_cases h1 : (1:ℚ)/100 ≤ |q0|
  · rw [if_pos h1]
    by_cases h2 : round2 q0 < 0
    · rw [if_pos ⟨h1, h2⟩]
      simp [h2]
    · rw [if_neg (fun hc => h2 hc.2)]
      simp [h2]
  · rw [if_neg h1, if_neg (fun hc => h1 hc.1)]
    simp

theorem creditors_cons (u0 : String) (q0 : ℚ) (b : List (String × ℚ)) :
    creditorsOf ((u0, q0) :: b)
      = (if 1/100 ≤ |q0| ∧ 0 < round2 q0 then [(u0, round2 q0)] else [])
        ++ creditorsOf b := by
  unfold creditorsOf
  rw [rounded_cons, List.filter_append]
  congr 1
  by_cases h1 : (1:ℚ)/100 ≤ |q0|
  · rw [if_pos h1]
    by_cases h2 : 0 < round2 q0
    · rw [if_pos ⟨h1, h2⟩]
      simp [h2]
    · rw [if_neg (fun hc => h2 hc.2)]
      simp [h2]
  · rw [if_neg h1, if_neg (fun hc => h1 hc.1)]
    simp

theorem debtors_fst_sub (t : List (String × ℚ)) (p : String × ℚ)
    (hp : p ∈ debtorsOf t) : p.1 ∈ t.map Prod.fst := by
  unfold debtorsOf rounded_balances at hp
  obtain ⟨r, hr, rfl⟩ := List.mem_map.mp hp
  obtain ⟨s, hs, rfl⟩ := List.mem_map.mp (List.mem_filter.mp hr).1
  simpa using List.mem_map_of_mem Prod.fst (List.mem_filter.mp hs).1

theorem creditors_fst_sub (t : List (String × ℚ)) (p : String × ℚ)
    (hp : p ∈ creditorsOf t) : p.1 ∈ t.map Prod.fst := by
  unfold creditorsOf rounded_balances at hp
  obtain ⟨s, hs, rfl⟩ := List.mem_map.mp (List.mem_filter.mp hp).1
  simpa using List.mem_map_of_mem Prod.fst (List.mem_filter.mp hs).1

theorem amtOf_debtors (b : List (String × ℚ)) (hnd : (b.map Prod.fst).Nodup)
    (u : String) (q : ℚ) (hm : (u, q) ∈ b) :
    amtOf u (debtorsOf b)
      = if 1/100 ≤ |q| ∧ round2 q < 0 then -(round2 q) else 0 := by
  induction b with
  | nil => cases hm
  | cons p t ih =>
    obtain ⟨u0, q0⟩ := p
    rw [List.map_cons, List.nodup_cons] at hnd
    rw [debtors_cons, amtOf_append]
    rcases List.mem_cons.mp hm with h | h
    · rw [Prod.mk.injEq] at h
      obtain ⟨h1, h2⟩ := h
      subst h1
      subst h2
      have hz : amtOf u (debtorsOf t) = 0 := by
        apply amtOf_zero
        intro p hp hpu
        exact hnd.1 (hpu ▸ debtors_fst_sub t p hp)
      rw [hz, add_zero]
      by_cases hc : 1/100 ≤ |q| ∧ round2 q < 0
      · rw [if_pos hc, if_pos hc, amtOf_cons, amtOf_nil]
        simp
      · rw [if_neg hc, if_neg hc, amtOf_nil]
    · have hu0 : u0 ≠ u := by
        intro heq
        apply hnd.1
        rw [heq]
        simpa using List.mem_map_of_mem Prod.fst h
      have hhead : amtOf u
          (if 1/100 ≤ |q0| ∧ round2 q0 < 0 then [(u0, -(round2 q0))] else []) = 0 := by
        by_cases hc : 1/100 ≤ |q0| ∧ round2 q0 < 0
        · rw [if_pos hc, amtOf_cons, amtOf_nil, if_neg hu0]
          simp
        · rw [if_neg hc, amtOf_nil]
      rw [hhead, zero_add, ih hnd.2 h]

theorem amtOf_creditors (b : List (String × ℚ)) (hnd : (b.map Prod.fst).Nodup)
    (u : String) (q : ℚ) (hm : (u, q) ∈ b) :
    amtOf u (creditorsOf b)
      = if 1/100 ≤ |q| ∧ 0 < round2 q then round2 q else 0 := by
  induction b with
  | nil => cases hm
  | cons p t ih =>
    obtain ⟨u0, q0⟩ := p
    rw [List.map_cons, List.nodup_cons] at hnd
    rw [creditors_cons, amtOf_append]
    rcases List.mem_cons.mp hm with h | h
    · rw [Prod.mk.injEq] at h
      obtain ⟨h1, h2⟩ := h
      subst h1
      subst h2
      have hz : amtOf u (creditorsOf t) = 0 := by
        apply amtOf_zero
        intro p hp hpu
        exact hnd.1 (hpu ▸ creditors_fst_sub t p hp)
      rw [hz, add_zero]
      by_cases hc : 1/100 ≤ |q| ∧ 0 < round2 q
      · rw [if_pos hc, if_pos hc, amtOf_cons, amtOf_nil]
        simp
      · rw [if_neg hc, if_neg hc, amtOf_nil]
    · have hu0 : u0 ≠ u := by
        intro heq
        apply hnd.1
        rw [heq]
        simpa using List.mem_map_of_mem Prod.fst h
      have hhead : amtOf u
          (if 1/100 ≤ |q0| ∧ 0 < round2 q0 then [(u0, round2 q0)] else []) = 0 := by
        by_cases hc : 1/100 ≤ |q0| ∧ 0 < round2 q0
        · rw [if_pos hc, amtOf_cons, amtOf_nil, if_neg hu0]
          simp
        · rw [if_neg hc, amtOf_nil]
      rw [hhead, zero_add, ih hnd.2 h]

/-! ## Claim C2 -/

/-- C2 counterexample: the claim fails as stated.  With balances
`{A: 10}` (no debtor at all) nothing is emitted and A stays at 10, far
from zero.  And with balances `{X: -0.02, Y1: 0.01, Y2: 0.01}` — debtor
and creditor totals equal — both matches settle exactly `0.01`, the
strict `> 0.01` emission test drops both, no suggestion is emitted, and
X stays at `-0.02`, outside the `0.01` tolerance. -/
theorem C2_counterexample :
    (simplify_settlements [("A", (10:ℚ))] = [] ∧
      ¬ (|(10:ℚ) + paidSum "A" (simplify_settlements [("A", (10:ℚ))])
          - recvSum "A" (simplify_settlements [("A", (10:ℚ))])| ≤ 1/100)) ∧
    ((((debtorsOf [("X", -(1/50:ℚ)), ("Y1", (1/100:ℚ)), ("Y2", (1/100:ℚ))]).map
          fun p => p.2).sum
        = ((creditorsOf [("X", -(1/50:ℚ)), ("Y1", (1/100:ℚ)), ("Y2", (1/100:ℚ))]).map
          fun p => p.2).sum) ∧
      simplify_settlements [("X", -(1/50:ℚ)), ("Y1", (1/100:ℚ)), ("Y2", (1/100:ℚ))] = [] ∧
      ¬ (|(-(1/50:ℚ)) + paidSum "X"
            (simplify_settlements [("X", -(1/50:ℚ)), ("Y1", (1/100:ℚ)), ("Y2", (1/100:ℚ))])
          - recvSum "X"
            (simplify_settlements [("X", -(1/50:ℚ)), ("Y1", (1/100:ℚ)), ("Y2", (1/100:ℚ))])|
          ≤ 1/100)) := by
  have h1 : simplify_settlements [("A", (10:ℚ))] = [] := by
    norm_num [simplify_settlements, debtorsOf, creditorsOf, rounded_balances, settleLoop,
      round2, round_eq]
  have h2 : simplify_settlements [("X", -(1/50:ℚ)), ("Y1", (1/100:ℚ)), ("Y2", (1/100:ℚ))]
      = [] := by
    norm_num [simplify_settlements, debtorsOf, creditorsOf, rounded_balances, settleLoop,
      feedOne, round2, round_eq, abs_of_nonneg, abs_of_nonpos]
  refine ⟨⟨h1, ?_⟩, ?_, h2, ?_⟩
  · rw [h1, paidSum_nil, recvSum_nil]
    intro habs
    rw [abs_le] at habs
    linarith [habs.2]
  · norm_num [debtorsOf, creditorsOf, rounded_balances, round2, round_eq,
      abs_of_nonneg, abs_of_nonpos]
  · rw [h2, paidSum_nil, recvSum_nil]
    intro habs
    rw [abs_le] at habs
    linarith [habs.1]

/-- C2 (amended): for every balances mapping, `simplify_settlements`
only ever emits amounts strictly above `0.01` (hence never below
`0.01`) — this half is unconditional; and whenever the keys are unique
(dict input), the filtered-and-rounded debtor total equals the creditor
total, and every settlement event of the sweep strictly exceeds `0.01`
(no exact-cent match is silently dropped), applying the emitted
suggestions as transfers — each debtor's balance increased, each
creditor's decreased by the suggested amount — leaves every
participant's balance within `0.01` of zero (users excluded by the
filter are within `0.01` already). -/
theorem C2_settlements (b : List (String × ℚ)) :
    (∀ ev ∈ simplify_settlements b, 1/100 < ev.2.2) ∧
    ((b.map Prod.fst).Nodup →
      ((debtorsOf b).map fun p => p.2).sum
        = ((creditorsOf b).map fun p => p.2).sum →
      (∀ ev ∈ settleLoopAll (debtorsOf b) (creditorsOf b), 1/100 < ev.2.2) →
      ∀ u q, (u, q) ∈ b →
        |q + paidSum u (simplify_settlements b)
          - recvSum u (simplify_settlements b)| ≤ 1/100) := by
  constructor
  · intro ev hev
    exact settleLoop_emitted _ _ ev hev
  · intro hnd hsum hbig u q hm
    have heq : simplify_settlements b = settleLoopAll (debtorsOf b) (creditorsOf b) := by
      unfold simplify_settlements
      exact settleLoop_eq_all _ _ hbig
    obtain ⟨hpaid, hrecv⟩ := settleLoopAll_spec (debtorsOf b) (creditorsOf b)
      (good_debtors b) (good_creditors b) hsum
    rw [heq, hpaid u, hrecv u, amtOf_debtors b hnd u q hm, amtOf_creditors b hnd u q hm]
    by_cases habs : (1:ℚ)/100 ≤ |q|
    · rcases le_abs.mp habs with hpos | hneg
      · have hr := round2_ge q hpos
        have hd : ¬ ((1:ℚ)/100 ≤ |q| ∧ round2 q < 0) :=
          fun hc => absurd hc.2 (not_lt.mpr (by linarith))
        have hcr : ((1:ℚ)/100 ≤ |q| ∧ 0 < round2 q) := ⟨habs, by linarith⟩
        rw [if_neg hd, if_pos hcr]
        have hb := abs_sub_round2 q
        have he : q + 0 - round2 q = q - round2 q := by ring
        rw [he]
        linarith [abs_le.mp hb |>.1, abs_le.mp hb |>.2, abs_le.mpr
          (⟨by linarith [abs_le.mp hb |>.1], by linarith [abs_le.mp hb |>.2]⟩ :
            -(1/100) ≤ q - round2 q ∧ q - round2 q ≤ 1/100) |>.le]
      · have hq : q ≤ -(1/100) := by linarith
        have hr := round2_le_neg q hq
        have hdr : ((1:ℚ)/100 ≤ |q| ∧ round2 q < 0) := ⟨habs, by linarith⟩
        have hcr : ¬ ((1:ℚ)/100 ≤ |q| ∧ 0 < round2 q) :=
          fun hc => absurd hc.2 (not_lt.mpr (by linarith))
        rw [if_pos hdr, if_neg hcr]
        have hb := abs_sub_round2 q
        have he : q + -(round2 q) - 0 = q - round2 q := by ring
        rw [he]
        have h1 := abs_le.mp hb
        rw [abs_le]
        constructor <;> linarith [h1.1, h1.2]
    · have hd : ¬ ((1:ℚ)/100 ≤ |q| ∧ round2 q < 0) := fun hc => habs hc.1
      have hcr : ¬ ((1:ℚ)/100 ≤ |q| ∧ 0 < round2 q) := fun hc => habs hc.1
      rw [if_neg hd, if_neg hcr]
      have he : q + 0 - 0 = q := by ring
      rw [he]
      linarith [not_le.mp habs]

/-- C2 witness: the spec's lunch scenario `{A: 10, B: -10}` — the single
suggestion "B pays A 10" exceeds `0.01` and settles both balances
exactly. -/
theorem C2_settlements_witness :
    (∀ ev ∈ simplify_settlements [("A", (10:ℚ)), ("B", -(10:ℚ))], 1/100 < ev.2.2) ∧
    (∀ u q, (u, q) ∈ [("A", (10:ℚ)), ("B", -(10:ℚ))] →
      |q + paidSum u (simplify_settlements [("A", (10:ℚ)), ("B", -(10:ℚ))])
        - recvSum u (simplify_settlements [("A", (10:ℚ)), ("B", -(10:ℚ))])| ≤ 1/100) := by
  have hall : settleLoopAll (debtorsOf [("A", (10:ℚ)), ("B", -(10:ℚ))])
      (creditorsOf [("A", (10:ℚ)), ("B", -(10:ℚ))]) = [("B", "A", (10:ℚ))] := by
    norm_num [debtorsOf, creditorsOf, rounded_balances, settleLoopAll, feedOneAll,
      round2, round_eq, abs_of_nonneg, abs_of_nonpos]
  have h := C2_settlements [("A", (10:ℚ)), ("B", -(10:ℚ))]
  refine ⟨h.1, h.2 (by decide) ?_ ?_⟩
  · norm_num [debtorsOf, creditorsOf, rounded_balances, round2, round_eq,
      abs_of_nonneg, abs_of_nonpos]
  · rw [hall]
    intro ev hev
    rcases List.mem_singleton.mp hev with rfl
    norm_num

end KrispyLedger
